import Mathlib

/-!
Shallow embedding of the ROI index/coordinate engine of `fractal-tasks-core`
(`lib_regions_of_interest.py`, `lib_regions_of_interest/v1_checks.py`,
`cellpose_segmentation.py`), together with theorems settling the spec claims
about it.  Physical micrometer quantities are modelled as rationals; Python's
builtin `round` is modelled exactly (round half to even); numpy arrays are
modelled as shape-plus-valuation records.
-/

namespace FractalROI

/-- Python's builtin `round` on a real value: round to the nearest integer,
with ties going to the even integer.  This is the rounding applied to the six
physical-to-pixel quotients in `convert_ROI_table_to_indices`
(`indices = list(map(round, indices))`). -/
def pyRound (q : ℚ) : ℤ :=
  if q - ⌊q⌋ < 1 / 2 then ⌊q⌋
  else if 1 / 2 < q - ⌊q⌋ then ⌊q⌋ + 1
  else if Even ⌊q⌋ then ⌊q⌋ else ⌊q⌋ + 1

theorem floor_le_pyRound (q : ℚ) : ⌊q⌋ ≤ pyRound q := by
  unfold pyRound
  split_ifs <;> omega

theorem pyRound_le_floor_add_one (q : ℚ) : pyRound q ≤ ⌊q⌋ + 1 := by
  unfold pyRound
  split_ifs <;> omega

theorem pyRound_nonneg {q : ℚ} (h : 0 ≤ q) : 0 ≤ pyRound q := by
  have : (0 : ℤ) ≤ ⌊q⌋ := Int.floor_nonneg.mpr h
  have := floor_le_pyRound q
  omega

theorem pyRound_mono {a b : ℚ} (h : a ≤ b) : pyRound a ≤ pyRound b := by
  have hfl : ⌊a⌋ ≤ ⌊b⌋ := Int.floor_mono h
  rcases eq_or_lt_of_le hfl with hfe | hflt
  · have hr : a - (⌊a⌋ : ℚ) ≤ b - (⌊b⌋ : ℚ) := by
      rw [← hfe]; linarith
    unfold pyRound
    rw [hfe] at hr ⊢
    split_ifs <;> first | omega | linarith
  · calc pyRound a ≤ ⌊a⌋ + 1 := pyRound_le_floor_add_one a
      _ ≤ ⌊b⌋ := hflt
      _ ≤ pyRound b := floor_le_pyRound b

/-- One row of a ROI AnnData table: the row's `obs` name and the six
positional columns read by `convert_ROI_table_to_indices`
(`x/y/z_micrometer` and `len_x/y/z_micrometer`). -/
structure ROIRow where
  name : String
  x_micrometer : ℚ
  y_micrometer : ℚ
  z_micrometer : ℚ
  len_x_micrometer : ℚ
  len_y_micrometer : ℚ
  len_z_micrometer : ℚ
deriving DecidableEq, Inhabited

/-- The six indices `[start_z, end_z, start_y, end_y, start_x, end_x]`
computed for one table row at given (already level-scaled) pixel sizes:
`start_axis = round(position / pixel_size)`,
`end_axis = round((position + length) / pixel_size)`. -/
def rowIndices (r : ROIRow) (pxl_size_z pxl_size_y pxl_size_x : ℚ) : List ℤ :=
  [pyRound (r.z_micrometer / pxl_size_z),
   pyRound ((r.z_micrometer + r.len_z_micrometer) / pxl_size_z),
   pyRound (r.y_micrometer / pxl_size_y),
   pyRound ((r.y_micrometer + r.len_y_micrometer) / pxl_size_y),
   pyRound (r.x_micrometer / pxl_size_x),
   pyRound ((r.x_micrometer + r.len_x_micrometer) / pxl_size_x)]

/-- Payload of the `ValueError` raised by `convert_ROI_table_to_indices` for a
negative index: the offending row's name, its ZYX physical position, the
(level-scaled) ZYX pixel sizes and the level, exactly the data interpolated
into the error message. -/
structure NegIndexError where
  roiName : String
  posZ : ℚ
  posY : ℚ
  posX : ℚ
  pxlZ : ℚ
  pxlY : ℚ
  pxlX : ℚ
  level : ℕ
deriving DecidableEq

/-- The per-row loop of `convert_ROI_table_to_indices`, at already-scaled
pixel sizes.  `min(indices) < 0` over the six indices is the same as some
index being negative, hence the `any` test. -/
def convertRows (pz py px : ℚ) (level : ℕ) : List ROIRow →
    Except NegIndexError (List (List ℤ))
  | [] => .ok []
  | r :: rs =>
    let indices := rowIndices r pz py px
    if indices.any (fun v => decide (v < 0)) then
      .error ⟨r.name, r.z_micrometer, r.y_micrometer, r.x_micrometer,
              pz, py, px, level⟩
    else
      match convertRows pz py px level rs with
      | .error e => .error e
      | .ok rest => .ok (indices :: rest)

/-- `convert_ROI_table_to_indices`: scale the X/Y pixel sizes by
`coarsening_xy ** level` (the Z pixel size is level-invariant), then convert
each row to its six integer indices; an empty table gives an empty list. -/
def convert_ROI_table_to_indices (rows : List ROIRow)
    (full_res_pxl_size_z full_res_pxl_size_y full_res_pxl_size_x : ℚ)
    (level : ℕ) (coarsening_xy : ℕ) :
    Except NegIndexError (List (List ℤ)) :=
  convertRows full_res_pxl_size_z
    (full_res_pxl_size_y * (coarsening_xy : ℚ) ^ level)
    (full_res_pxl_size_x * (coarsening_xy : ℚ) ^ level)
    level rows

theorem convertRows_ok_of_nonneg (pz py px : ℚ) (level : ℕ)
    (rows : List ROIRow)
    (h : ∀ r ∈ rows, ∀ v ∈ rowIndices r pz py px, 0 ≤ v) :
    convertRows pz py px level rows =
      .ok (rows.map (fun r => rowIndices r pz py px)) := by
  induction rows with
  | nil => rfl
  | cons r rs ih =>
    have hr : ¬ (rowIndices r pz py px).any (fun v => decide (v < 0)) = true := by
      simp only [List.any_eq_true, decide_eq_true_eq, not_exists, not_and, not_lt]
      exact fun v hv => h r (by simp) v hv
    have hrs := ih (fun a ha v hv => h a (by simp [ha]) v hv)
    simp only [convertRows, hr, if_neg, hrs]
    rfl

theorem convertRows_ok_inv (pz py px : ℚ) (level : ℕ)
    (rows : List ROIRow) (l : List (List ℤ))
    (h : convertRows pz py px level rows = .ok l) :
    l = rows.map (fun r => rowIndices r pz py px) ∧
      ∀ r ∈ rows, ∀ v ∈ rowIndices r pz py px, 0 ≤ v := by
  induction rows generalizing l with
  | nil =>
    simp only [convertRows] at h
    cases h
    simp
  | cons r rs ih =>
    simp only [convertRows] at h
    by_cases hneg : (rowIndices r pz py px).any (fun v => decide (v < 0)) = true
    · simp [hneg] at h
    · simp only [hneg, if_neg, Bool.false_eq_true, not_false_eq_true] at h
      cases hrest : convertRows pz py px level rs with
      | error e => rw [hrest] at h; cases h
      | ok rest =>
        rw [hrest] at h
        cases h
        obtain ⟨h1, h2⟩ := ih rest hrest
        refine ⟨by rw [h1]; rfl, ?_⟩
        intro a ha v hv
        rcases List.mem_cons.mp ha with rfl | ha2
        · simp only [List.any_eq_true, decide_eq_true_eq, not_exists, not_and,
            not_lt] at hneg
          exact hneg v hv
        · exact h2 a ha2 v hv

theorem convertRows_error_inv (pz py px : ℚ) (level : ℕ)
    (rows : List ROIRow) (e : NegIndexError)
    (h : convertRows pz py px level rows = .error e) :
    ∃ r ∈ rows, (∃ v ∈ rowIndices r pz py px, v < 0) ∧
      e = ⟨r.name, r.z_micrometer, r.y_micrometer, r.x_micrometer,
           pz, py, px, level⟩ := by
  induction rows with
  | nil => simp [convertRows] at h
  | cons r rs ih =>
    simp only [convertRows] at h
    by_cases hneg : (rowIndices r pz py px).any (fun v => decide (v < 0)) = true
    · simp only [hneg, if_pos] at h
      refine ⟨r, by simp, ?_, ?_⟩
      · simpa only [List.any_eq_true, decide_eq_true_eq] using hneg
      · cases h; rfl
    · simp only [hneg, if_neg, Bool.false_eq_true, not_false_eq_true] at h
      cases hrest : convertRows pz py px level rs with
      | error e2 =>
        rw [hrest] at h
        cases h
        obtain ⟨a, ha, hv, he⟩ := ih hrest
        exact ⟨a, by simp [ha], hv, he⟩
      | ok rest => rw [hrest] at h; cases h

theorem convertRows_error_of_neg (pz py px : ℚ) (level : ℕ)
    (rows : List ROIRow)
    (h : ∃ r ∈ rows, ∃ v ∈ rowIndices r pz py px, v < 0) :
    ∃ e, convertRows pz py px level rows = .error e := by
  induction rows with
  | nil => simp at h
  | cons r rs ih =>
    by_cases hneg : (rowIndices r pz py px).any (fun v => decide (v < 0)) = true
    · refine ⟨⟨r.name, r.z_micrometer, r.y_micrometer, r.x_micrometer,
        pz, py, px, level⟩, ?_⟩
      simp only [convertRows, hneg, if_pos]
    · have hr : ∀ v ∈ rowIndices r pz py px, 0 ≤ v := by
        simp only [List.any_eq_true, decide_eq_true_eq, not_exists, not_and,
          not_lt] at hneg
        exact hneg
      obtain ⟨a, ha, v, hv, hvneg⟩ := h
      rcases List.mem_cons.mp ha with rfl | ha2
      · exact absurd (hr v hv) (not_le.mpr hvneg)
      · obtain ⟨e, he⟩ := ih ⟨a, ha2, v, hv, hvneg⟩
        refine ⟨e, ?_⟩
        simp only [convertRows, hneg, if_neg, Bool.false_eq_true,
          not_false_eq_true, he]

theorem div_le_div_of_le_den {a b1 b2 : ℚ} (ha : 0 ≤ a) (hb1 : 0 < b1)
    (hle : b1 ≤ b2) : a / b2 ≤ a / b1 := by
  have hb2 : 0 < b2 := lt_of_lt_of_le hb1 hle
  rw [div_le_div_iff₀ hb2 hb1]
  exact mul_le_mul_of_nonneg_left hle ha

/-- C1: `convert_ROI_table_to_indices` returns one six-integer range
`[start_z, end_z, start_y, end_y, start_x, end_x]` per input row, in the
table's row order, each value being `round(position / pixel_size)` or
`round((position + length) / pixel_size)` (round to nearest integer, ties to
even); the X and Y pixel sizes are the full-resolution ones multiplied by
`coarsening_xy ^ level` while the Z pixel size is level-invariant; it fails
exactly when some row yields a negative rounded index, the error carrying the
row identifier, its physical position, the pixel sizes used and the level;
and an empty table yields an empty list without error. -/
theorem convert_ROI_table_to_indices_spec
    (rows : List ROIRow) (pz py px : ℚ) (level coarsening_xy : ℕ)
    (hz : 0 < pz) (hy : 0 < py) (hx : 0 < px) :
    (convert_ROI_table_to_indices rows pz py px level coarsening_xy =
        .ok (rows.map (fun r => rowIndices r pz
          (py * (coarsening_xy : ℚ) ^ level)
          (px * (coarsening_xy : ℚ) ^ level))) ↔
      ∀ r ∈ rows, ∀ v ∈ rowIndices r pz (py * (coarsening_xy : ℚ) ^ level)
        (px * (coarsening_xy : ℚ) ^ level), 0 ≤ v) ∧
    (∀ l, convert_ROI_table_to_indices rows pz py px level coarsening_xy =
        .ok l →
      l = rows.map (fun r => rowIndices r pz
        (py * (coarsening_xy : ℚ) ^ level)
        (px * (coarsening_xy : ℚ) ^ level)) ∧ l.length = rows.length) ∧
    ((∃ e, convert_ROI_table_to_indices rows pz py px level coarsening_xy =
        .error e) ↔
      ∃ r ∈ rows, ∃ v ∈ rowIndices r pz (py * (coarsening_xy : ℚ) ^ level)
        (px * (coarsening_xy : ℚ) ^ level), v < 0) ∧
    (∀ e, convert_ROI_table_to_indices rows pz py px level coarsening_xy =
        .error e →
      ∃ r ∈ rows,
        (∃ v ∈ rowIndices r pz (py * (coarsening_xy : ℚ) ^ level)
          (px * (coarsening_xy : ℚ) ^ level), v < 0) ∧
        e = ⟨r.name, r.z_micrometer, r.y_micrometer, r.x_micrometer,
             pz, py * (coarsening_xy : ℚ) ^ level,
             px * (coarsening_xy : ℚ) ^ level, level⟩) ∧
    (rows = [] →
      convert_ROI_table_to_indices rows pz py px level coarsening_xy =
        .ok []) ∧
    (∀ r : ROIRow, rowIndices r pz (py * (coarsening_xy : ℚ) ^ level)
        (px * (coarsening_xy : ℚ) ^ level) =
      [pyRound (r.z_micrometer / pz),
       pyRound ((r.z_micrometer + r.len_z_micrometer) / pz),
       pyRound (r.y_micrometer / (py * (coarsening_xy : ℚ) ^ level)),
       pyRound ((r.y_micrometer + r.len_y_micrometer) /
         (py * (coarsening_xy : ℚ) ^ level)),
       pyRound (r.x_micrometer / (px * (coarsening_xy : ℚ) ^ level)),
       pyRound ((r.x_micrometer + r.len_x_micrometer) /
         (px * (coarsening_xy : ℚ) ^ level))]) ∧
    (∀ (r : ROIRow) (a b c : ℚ), (rowIndices r a b c).length = 6) := by
  refine ⟨⟨?_, ?_⟩, ?_, ⟨?_, ?_⟩, ?_, ?_, ?_, ?_⟩
  · intro h
    exact (convertRows_ok_inv _ _ _ _ _ _ h).2
  · intro h
    exact convertRows_ok_of_nonneg _ _ _ _ _ h
  · intro l hl
    obtain ⟨h1, _⟩ := convertRows_ok_inv _ _ _ _ _ _ hl
    exact ⟨h1, by rw [h1]; simp⟩
  · rintro ⟨e, he⟩
    obtain ⟨r, hr, hv, _⟩ := convertRows_error_inv _ _ _ _ _ _ he
    exact ⟨r, hr, hv⟩
  · intro h
    exact convertRows_error_of_neg _ _ _ _ _ h
  · intro e he
    exact convertRows_error_inv _ _ _ _ _ _ he
  · rintro rfl
    rfl
  · intro r
    rfl
  · intro r a b c
    rfl

/-- A concrete one-row FOV table used in witnesses. -/
def witnessRow : ROIRow := ⟨"FOV_1", 0, 0, 0, 2, 2, 2⟩

/-- Witness for C1: a concrete one-row table with unit pixel sizes at level 0
converts to the single range `[0, 2, 0, 2, 0, 2]`. -/
theorem convert_ROI_table_to_indices_spec_witness :
    (0 : ℚ) < 1 ∧
    convert_ROI_table_to_indices [witnessRow] 1 1 1 0 2 =
      .ok [[0, 2, 0, 2, 0, 2]] := by
  have hEval : rowIndices witnessRow 1 (1 * ((2 : ℕ) : ℚ) ^ 0)
      (1 * ((2 : ℕ) : ℚ) ^ 0) = [0, 2, 0, 2, 0, 2] := by
    unfold rowIndices pyRound witnessRow
    norm_num
  have h := convert_ROI_table_to_indices_spec [witnessRow] 1 1 1 0 2
    one_pos one_pos one_pos
  have hok := h.1.mpr (by
    intro r hr v hv
    rcases List.mem_singleton.mp hr with rfl
    rw [hEval] at hv
    simp only [List.mem_cons, List.not_mem_nil, or_false] at hv
    rcases hv with rfl | rfl | rfl | rfl | rfl | rfl <;> norm_num)
  refine ⟨one_pos, ?_⟩
  rw [hok]
  simp only [List.map_cons, List.map_nil, hEval]

/-- C8: for a fixed ROI row with non-negative position and extents, positive
full-resolution pixel sizes and coarsening factor at least 1, the conversion
succeeds at every level and, for levels `L1 ≤ L2`, every one of the six
indices at level `L2` is at most the corresponding index at level `L1`, the
two Z indices being equal across levels. -/
theorem convert_ROI_table_to_indices_level_mono
    (r : ROIRow) (pz py px : ℚ) (c L1 L2 : ℕ)
    (hz : 0 < pz) (hy : 0 < py) (hx : 0 < px) (hc : 1 ≤ c) (hL : L1 ≤ L2)
    (hx0 : 0 ≤ r.x_micrometer) (hy0 : 0 ≤ r.y_micrometer)
    (hz0 : 0 ≤ r.z_micrometer)
    (hlx : 0 ≤ r.len_x_micrometer) (hly : 0 ≤ r.len_y_micrometer)
    (hlz : 0 ≤ r.len_z_micrometer) :
    convert_ROI_table_to_indices [r] pz py px L1 c =
      .ok [rowIndices r pz (py * (c : ℚ) ^ L1) (px * (c : ℚ) ^ L1)] ∧
    convert_ROI_table_to_indices [r] pz py px L2 c =
      .ok [rowIndices r pz (py * (c : ℚ) ^ L2) (px * (c : ℚ) ^ L2)] ∧
    (∀ k, (rowIndices r pz (py * (c : ℚ) ^ L2) (px * (c : ℚ) ^ L2)).getD k 0 ≤
          (rowIndices r pz (py * (c : ℚ) ^ L1) (px * (c : ℚ) ^ L1)).getD k 0) ∧
    (rowIndices r pz (py * (c : ℚ) ^ L2) (px * (c : ℚ) ^ L2)).getD 0 0 =
      (rowIndices r pz (py * (c : ℚ) ^ L1) (px * (c : ℚ) ^ L1)).getD 0 0 ∧
    (rowIndices r pz (py * (c : ℚ) ^ L2) (px * (c : ℚ) ^ L2)).getD 1 0 =
      (rowIndices r pz (py * (c : ℚ) ^ L1) (px * (c : ℚ) ^ L1)).getD 1 0 := by
  have hc1 : (1 : ℚ) ≤ (c : ℚ) := by exact_mod_cast hc
  have hcpos : (0 : ℚ) < (c : ℚ) := lt_of_lt_of_le one_pos hc1
  have hp1 : (0 : ℚ) < (c : ℚ) ^ L1 := pow_pos hcpos L1
  have hp2 : (0 : ℚ) < (c : ℚ) ^ L2 := pow_pos hcpos L2
  have hpow : (c : ℚ) ^ L1 ≤ (c : ℚ) ^ L2 := pow_le_pow_right₀ hc1 hL
  have hyL1 : 0 < py * (c : ℚ) ^ L1 := mul_pos hy hp1
  have hyL2 : 0 < py * (c : ℚ) ^ L2 := mul_pos hy hp2
  have hxL1 : 0 < px * (c : ℚ) ^ L1 := mul_pos hx hp1
  have hxL2 : 0 < px * (c : ℚ) ^ L2 := mul_pos hx hp2
  have hyle : py * (c : ℚ) ^ L1 ≤ py * (c : ℚ) ^ L2 :=
    mul_le_mul_of_nonneg_left hpow hy.le
  have hxle : px * (c : ℚ) ^ L1 ≤ px * (c : ℚ) ^ L2 :=
    mul_le_mul_of_nonneg_left hpow hx.le
  have hnn : ∀ pyL pxL : ℚ, 0 < pyL → 0 < pxL →
      ∀ v ∈ rowIndices r pz pyL pxL, 0 ≤ v := by
    intro pyL pxL hpyL hpxL v hv
    simp only [rowIndices, List.mem_cons, List.not_mem_nil, or_false] at hv
    rcases hv with rfl | rfl | rfl | rfl | rfl | rfl <;>
      exact pyRound_nonneg (div_nonneg (by linarith) (by linarith))
  have hok : ∀ pyL pxL : ℚ, 0 < pyL → 0 < pxL → ∀ lvl,
      convertRows pz pyL pxL lvl [r] = .ok [rowIndices r pz pyL pxL] := by
    intro pyL pxL hpyL hpxL lvl
    have := convertRows_ok_of_nonneg pz pyL pxL lvl [r]
      (fun a ha v hv => by
        rcases List.mem_singleton.mp ha with rfl
        exact hnn pyL pxL hpyL hpxL v hv)
    simpa using this
  have hmy : ∀ a : ℚ, 0 ≤ a →
      pyRound (a / (py * (c : ℚ) ^ L2)) ≤ pyRound (a / (py * (c : ℚ) ^ L1)) :=
    fun a ha => pyRound_mono (div_le_div_of_le_den ha hyL1 hyle)
  have hmx : ∀ a : ℚ, 0 ≤ a →
      pyRound (a / (px * (c : ℚ) ^ L2)) ≤ pyRound (a / (px * (c : ℚ) ^ L1)) :=
    fun a ha => pyRound_mono (div_le_div_of_le_den ha hxL1 hxle)
  refine ⟨hok _ _ hyL1 hxL1 L1, hok _ _ hyL2 hxL2 L2, ?_, rfl, rfl⟩
  intro k
  match k with
  | 0 => exact le_refl _
  | 1 => exact le_refl _
  | 2 => exact hmy _ hy0
  | 3 => exact hmy _ (by linarith)
  | 4 => exact hmx _ hx0
  | 5 => exact hmx _ (by linarith)
  | (n + 6) => exact le_refl _

/-- Witness for C8: the concrete row converts at levels 0 and 1 with
coarsening 2, and the level-1 indices are componentwise at most the level-0
ones. -/
theorem convert_ROI_table_to_indices_level_mono_witness :
    convert_ROI_table_to_indices [witnessRow] 1 1 1 1 2 =
      .ok [[0, 2, 0, 1, 0, 1]] := by
  have hEval : rowIndices witnessRow 1 (1 * ((2 : ℕ) : ℚ) ^ 1)
      (1 * ((2 : ℕ) : ℚ) ^ 1) = [0, 2, 0, 1, 0, 1] := by
    unfold rowIndices pyRound witnessRow
    norm_num
  have h := convert_ROI_table_to_indices_level_mono witnessRow 1 1 1 2 0 1
    one_pos one_pos one_pos (by norm_num) (by norm_num)
    (by norm_num [witnessRow]) (by norm_num [witnessRow])
    (by norm_num [witnessRow]) (by norm_num [witnessRow])
    (by norm_num [witnessRow]) (by norm_num [witnessRow])
  have h2 := h.2.1
  rw [h2]
  rw [hEval]

/-- Error raised by `check_valid_ROI_indices`: either the `ValueError` that
Python's `min` raises on an empty sequence (reached when the index list is
empty and the table name is a FOV/well one), or the non-zero-origin
`ValueError`, whose message carries the axis name, the table name and the
offending minimum index. -/
inductive OriginCheckError where
  | emptySequence
  | nonzeroOrigin (axis : String) (tableName : String) (minIndex : ℤ)
deriving DecidableEq

/-- `item[0]` of a six-integer index range `[start_z, end_z, start_y, end_y,
start_x, end_x]`. -/
def startZ (item : List ℤ) : ℤ := item.getD 0 0

/-- `item[2]` of a six-integer index range. -/
def startY (item : List ℤ) : ℤ := item.getD 2 0

/-- `item[4]` of a six-integer index range. -/
def startX (item : List ℤ) : ℤ := item.getD 4 0

/-- Python's `min` over a non-empty integer list; the `[]` case is never
reached in `check_valid_ROI_indices`, which maps Python's empty-sequence
`ValueError` to `.error .emptySequence` instead. -/
def intMin : List ℤ → ℤ
  | [] => 0
  | a :: as => as.foldl min a

/-- `check_valid_ROI_indices`: a no-op unless the table name is
`FOV_ROI_table` or `well_ROI_table`; otherwise compute the minimum of
`item[0]`, `item[2]`, `item[4]` over all entries and fail on the first axis
(Z, then Y, then X) whose minimum is non-zero.  On an empty list Python's
`min` itself raises (`min() arg is an empty sequence`). -/
def check_valid_ROI_indices (list_indices : List (List ℤ))
    (ROI_table_name : String) : Except OriginCheckError Unit :=
  if ROI_table_name ∉ ["FOV_ROI_table", "well_ROI_table"] then .ok ()
  else
    match list_indices with
    | [] => .error .emptySequence
    | x :: xs =>
      if intMin ((x :: xs).map startZ) ≠ 0 then
        .error (.nonzeroOrigin "Z" ROI_table_name (intMin ((x :: xs).map startZ)))
      else if intMin ((x :: xs).map startY) ≠ 0 then
        .error (.nonzeroOrigin "Y" ROI_table_name (intMin ((x :: xs).map startY)))
      else if intMin ((x :: xs).map startX) ≠ 0 then
        .error (.nonzeroOrigin "X" ROI_table_name (intMin ((x :: xs).map startX)))
      else .ok ()

/-- C2 counterexample: on an empty index list with a field-of-view table name
the code raises (Python's `min` over an empty generator), although no
per-axis start minimum exists, let alone a non-zero one; the claimed
raise-iff-some-minimum-nonzero characterization therefore fails on the empty
list. -/
theorem check_valid_ROI_indices_empty_FOV_errors :
    check_valid_ROI_indices [] "FOV_ROI_table" = .error .emptySequence := by
  rfl

/-- C2 (amended to non-empty index lists): `check_valid_ROI_indices` is a
no-op for any table name other than `FOV_ROI_table`/`well_ROI_table`; for
those two names it fails exactly when some per-axis minimum of the
`start_z`/`start_y`/`start_x` values over all entries is non-zero, the error
naming the first offending axis (Z, then Y, then X) and its minimum value,
and succeeds when all three minima are zero. -/
theorem check_valid_ROI_indices_spec (l : List (List ℤ)) (name : String)
    (hne : l ≠ []) :
    (name ≠ "FOV_ROI_table" ∧ name ≠ "well_ROI_table" →
      check_valid_ROI_indices l name = .ok ()) ∧
    (name = "FOV_ROI_table" ∨ name = "well_ROI_table" →
      ((∃ e, check_valid_ROI_indices l name = .error e) ↔
        (intMin (l.map startZ) ≠ 0 ∨ intMin (l.map startY) ≠ 0 ∨
         intMin (l.map startX) ≠ 0)) ∧
      (intMin (l.map startZ) = 0 ∧ intMin (l.map startY) = 0 ∧
         intMin (l.map startX) = 0 →
        check_valid_ROI_indices l name = .ok ()) ∧
      (∀ e, check_valid_ROI_indices l name = .error e →
        (intMin (l.map startZ) ≠ 0 ∧
          e = .nonzeroOrigin "Z" name (intMin (l.map startZ))) ∨
        (intMin (l.map startZ) = 0 ∧ intMin (l.map startY) ≠ 0 ∧
          e = .nonzeroOrigin "Y" name (intMin (l.map startY))) ∨
        (intMin (l.map startZ) = 0 ∧ intMin (l.map startY) = 0 ∧
          intMin (l.map startX) ≠ 0 ∧
          e = .nonzeroOrigin "X" name (intMin (l.map startX))))) := by
  obtain ⟨x, xs, rfl⟩ := List.exists_cons_of_ne_nil hne
  constructor
  · intro ⟨h1, h2⟩
    have hmem : name ∉ ["FOV_ROI_table", "well_ROI_table"] := by
      simp [h1, h2]
    simp [check_valid_ROI_indices, hmem]
  · intro hname
    have hmem : ¬ name ∉ ["FOV_ROI_table", "well_ROI_table"] :=
      not_not.mpr (by simpa using hname)
    have hred : check_valid_ROI_indices (x :: xs) name =
        (if intMin ((x :: xs).map startZ) ≠ 0 then
          .error (.nonzeroOrigin "Z" name (intMin ((x :: xs).map startZ)))
        else if intMin ((x :: xs).map startY) ≠ 0 then
          .error (.nonzeroOrigin "Y" name (intMin ((x :: xs).map startY)))
        else if intMin ((x :: xs).map startX) ≠ 0 then
          .error (.nonzeroOrigin "X" name (intMin ((x :: xs).map startX)))
        else .ok ()) := by
      unfold check_valid_ROI_indices
      rw [if_neg hmem]
    by_cases hz : intMin ((x :: xs).map startZ) = 0
    · by_cases hy : intMin ((x :: xs).map startY) = 0
      · by_cases hx : intMin ((x :: xs).map startX) = 0
        · have hok : check_valid_ROI_indices (x :: xs) name = .ok () := by
            rw [hred, if_neg (not_not.mpr hz), if_neg (not_not.mpr hy),
              if_neg (not_not.mpr hx)]
          refine ⟨⟨?_, ?_⟩, fun _ => hok, fun e he => ?_⟩
          · rintro ⟨e, he⟩
            rw [hok] at he
            cases he
          · intro h
            rcases h with h | h | h
            exacts [absurd hz h, absurd hy h, absurd hx h]
          · rw [hok] at he
            cases he
        · have herr : check_valid_ROI_indices (x :: xs) name =
              .error (.nonzeroOrigin "X" name (intMin ((x :: xs).map startX))) := by
            rw [hred, if_neg (not_not.mpr hz), if_neg (not_not.mpr hy),
              if_pos hx]
          refine ⟨⟨fun _ => Or.inr (Or.inr hx), fun _ => ⟨_, herr⟩⟩,
            fun h0 => absurd h0.2.2 hx, fun e he => ?_⟩
          rw [herr] at he
          cases he
          exact Or.inr (Or.inr ⟨hz, hy, hx, rfl⟩)
      · have herr : check_valid_ROI_indices (x :: xs) name =
            .error (.nonzeroOrigin "Y" name (intMin ((x :: xs).map startY))) := by
          rw [hred, if_neg (not_not.mpr hz), if_pos hy]
        refine ⟨⟨fun _ => Or.inr (Or.inl hy), fun _ => ⟨_, herr⟩⟩,
          fun h0 => absurd h0.2.1 hy, fun e he => ?_⟩
        rw [herr] at he
        cases he
        exact Or.inr (Or.inl ⟨hz, hy, rfl⟩)
    · have herr : check_valid_ROI_indices (x :: xs) name =
          .error (.nonzeroOrigin "Z" name (intMin ((x :: xs).map startZ))) := by
        rw [hred, if_pos hz]
      refine ⟨⟨fun _ => Or.inl hz, fun _ => ⟨_, herr⟩⟩,
        fun h0 => absurd h0.1 hz, fun e he => ?_⟩
      rw [herr] at he
      cases he
      exact Or.inl ⟨hz, rfl⟩

/-- Witness for C2: a one-row table starting at pixel `(0, 0, 0)` passes; a
one-row table starting at pixel `(-1, 0, 0)` fails naming axis Z with
minimum `-1`. -/
theorem check_valid_ROI_indices_spec_witness :
    check_valid_ROI_indices [[0, 0, 0, 0, 0, 0]] "FOV_ROI_table" = .ok () ∧
    check_valid_ROI_indices [[-1, 0, 0, 0, 0, 0]] "FOV_ROI_table" =
      .error (.nonzeroOrigin "Z" "FOV_ROI_table" (-1)) := by
  constructor
  · have h := check_valid_ROI_indices_spec [[0, 0, 0, 0, 0, 0]]
      "FOV_ROI_table" (List.cons_ne_nil _ _)
    exact (h.2 (Or.inl rfl)).2.1 ⟨by decide, by decide, by decide⟩
  · rfl

/-- Python's `min` over a non-empty rational column; the `[]` case is never
reached by the claims, which assume non-empty tables (Python would raise). -/
def colMin : List ℚ → ℚ
  | [] => 0
  | a :: as => as.foldl min a

/-- Python's `max` over a non-empty rational column. -/
def colMax : List ℚ → ℚ
  | [] => 0
  | a :: as => as.foldl max a

theorem foldl_min_le (as : List ℚ) (a : ℚ) :
    ∀ b ∈ a :: as, as.foldl min a ≤ b := by
  induction as generalizing a with
  | nil =>
    intro b hb
    rcases List.mem_singleton.mp hb with rfl
    exact le_refl _
  | cons c cs ih =>
    intro b hb
    rw [List.foldl_cons]
    rcases List.mem_cons.mp hb with rfl | hb2
    · exact le_trans (ih (min b c) _ (List.mem_cons_self _ _)) (min_le_left _ _)
    · rcases List.mem_cons.mp hb2 with rfl | hb3
      · exact le_trans (ih (min a b) _ (List.mem_cons_self _ _))
          (min_le_right _ _)
      · exact ih (min a c) b (List.mem_cons_of_mem _ hb3)

theorem foldl_min_mem (as : List ℚ) (a : ℚ) : as.foldl min a ∈ a :: as := by
  induction as generalizing a with
  | nil => simp
  | cons c cs ih =>
    rw [List.foldl_cons]
    rcases List.mem_cons.mp (ih (min a c)) with h | h
    · rcases min_choice a c with h2 | h2
      · rw [h, h2]
        exact List.mem_cons_self _ _
      · rw [h, h2]
        exact List.mem_cons_of_mem _ (List.mem_cons_self _ _)
    · exact List.mem_cons_of_mem _ (List.mem_cons_of_mem _ h)

theorem colMin_le {l : List ℚ} {b : ℚ} (h : b ∈ l) : colMin l ≤ b := by
  cases l with
  | nil => cases h
  | cons a as => exact foldl_min_le as a b h

theorem colMin_mem {l : List ℚ} (h : l ≠ []) : colMin l ∈ l := by
  cases l with
  | nil => exact absurd rfl h
  | cons a as => exact foldl_min_mem as a

theorem colMin_shift (l : List ℚ) (h : l ≠ []) :
    colMin (l.map (fun a => a - colMin l)) = 0 ∧
    ∀ b ∈ l.map (fun a => a - colMin l), 0 ≤ b := by
  have hle : ∀ b ∈ l.map (fun a => a - colMin l), 0 ≤ b := by
    intro b hb
    obtain ⟨a, ha, rfl⟩ := List.mem_map.mp hb
    have := colMin_le ha
    linarith
  refine ⟨le_antisymm ?_ ?_, hle⟩
  · have h0 : (0 : ℚ) ∈ l.map (fun a => a - colMin l) :=
      List.mem_map.mpr ⟨colMin l, colMin_mem h, by ring⟩
    exact colMin_le h0
  · have hm : l.map (fun a => a - colMin l) ≠ [] := by
      intro hmap
      exact h (List.map_eq_nil_iff.mp hmap)
    exact hle _ (colMin_mem hm)

/-- `reset_origin`: return a copy of the table in which, per axis, the
minimum position value across all rows has been subtracted from every row's
position on that axis. -/
def reset_origin (ROI_table : List ROIRow) : List ROIRow :=
  ROI_table.map (fun r =>
    { r with
      x_micrometer :=
        r.x_micrometer - colMin (ROI_table.map (fun s => s.x_micrometer))
      y_micrometer :=
        r.y_micrometer - colMin (ROI_table.map (fun s => s.y_micrometer))
      z_micrometer :=
        r.z_micrometer - colMin (ROI_table.map (fun s => s.z_micrometer)) })

/-- One raw field-of-view metadata row: the dataframe columns consumed by
`prepare_FOV_ROI_table` and `prepare_well_ROI_table`. -/
structure FOVRow where
  index : String
  x_micrometer : ℚ
  y_micrometer : ℚ
  z_micrometer : ℚ
  x_pixel : ℕ
  y_pixel : ℕ
  z_pixel : ℕ
  pixel_size_x : ℚ
  pixel_size_y : ℚ
  pixel_size_z : ℚ
deriving Inhabited

/-- The ROI row `prepare_FOV_ROI_table` builds from one FOV record:
`len_*_micrometer = *_pixel * pixel_size_*`, the row name being the dataframe
index prefixed with `FOV_`.  (The `x/y_micrometer_original` and `obs`
metadata columns are not modelled; no claim concerns them.) -/
def mkFOVROIRow (f : FOVRow) : ROIRow :=
  ⟨"FOV_" ++ f.index, f.x_micrometer, f.y_micrometer, f.z_micrometer,
   (f.x_pixel : ℚ) * f.pixel_size_x, (f.y_pixel : ℚ) * f.pixel_size_y,
   (f.z_pixel : ℚ) * f.pixel_size_z⟩

/-- `prepare_FOV_ROI_table`: one ROI row per FOV record, then
origin-reset. -/
def prepare_FOV_ROI_table (df : List FOVRow) : List ROIRow :=
  reset_origin (df.map mkFOVROIRow)

/-- `prepare_well_ROI_table`: per axis, position = minimum over FOVs of the
FOV start, extent = maximum over FOVs of the FOV end minus that minimum; the
single surviving row (`df.iloc[0:1]`, renamed `well_` + index) is then
origin-reset. -/
def prepare_well_ROI_table (df : List FOVRow) : List ROIRow :=
  match df with
  | [] => []
  | f :: fs =>
    reset_origin
      [⟨"well_" ++ f.index,
        colMin ((f :: fs).map (fun g => g.x_micrometer)),
        colMin ((f :: fs).map (fun g => g.y_micrometer)),
        colMin ((f :: fs).map (fun g => g.z_micrometer)),
        colMax ((f :: fs).map
          (fun g => g.x_micrometer + (g.x_pixel : ℚ) * g.pixel_size_x)) -
          colMin ((f :: fs).map (fun g => g.x_micrometer)),
        colMax ((f :: fs).map
          (fun g => g.y_micrometer + (g.y_pixel : ℚ) * g.pixel_size_y)) -
          colMin ((f :: fs).map (fun g => g.y_micrometer)),
        colMax ((f :: fs).map
          (fun g => g.z_micrometer + (g.z_pixel : ℚ) * g.pixel_size_z)) -
          colMin ((f :: fs).map (fun g => g.z_micrometer))⟩]

theorem reset_origin_cols_x (rows : List ROIRow) :
    (reset_origin rows).map (fun r => r.x_micrometer) =
      (rows.map (fun r => r.x_micrometer)).map
        (fun a => a - colMin (rows.map (fun s => s.x_micrometer))) := by
  simp only [reset_origin, List.map_map]
  rfl

theorem reset_origin_cols_y (rows : List ROIRow) :
    (reset_origin rows).map (fun r => r.y_micrometer) =
      (rows.map (fun r => r.y_micrometer)).map
        (fun a => a - colMin (rows.map (fun s => s.y_micrometer))) := by
  simp only [reset_origin, List.map_map]
  rfl

theorem reset_origin_cols_z (rows : List ROIRow) :
    (reset_origin rows).map (fun r => r.z_micrometer) =
      (rows.map (fun r => r.z_micrometer)).map
        (fun a => a - colMin (rows.map (fun s => s.z_micrometer))) := by
  simp only [reset_origin, List.map_map]
  rfl

theorem reset_origin_core (rows : List ROIRow) (h : rows ≠ []) :
    (colMin ((reset_origin rows).map (fun r => r.x_micrometer)) = 0 ∧
     colMin ((reset_origin rows).map (fun r => r.y_micrometer)) = 0 ∧
     colMin ((reset_origin rows).map (fun r => r.z_micrometer)) = 0) ∧
    ∀ r ∈ reset_origin rows,
      0 ≤ r.x_micrometer ∧ 0 ≤ r.y_micrometer ∧ 0 ≤ r.z_micrometer := by
  have hx : rows.map (fun r => r.x_micrometer) ≠ [] :=
    fun hmap => h (List.map_eq_nil_iff.mp hmap)
  have hy : rows.map (fun r => r.y_micrometer) ≠ [] :=
    fun hmap => h (List.map_eq_nil_iff.mp hmap)
  have hz : rows.map (fun r => r.z_micrometer) ≠ [] :=
    fun hmap => h (List.map_eq_nil_iff.mp hmap)
  refine ⟨⟨?_, ?_, ?_⟩, ?_⟩
  · rw [reset_origin_cols_x]
    exact (colMin_shift _ hx).1
  · rw [reset_origin_cols_y]
    exact (colMin_shift _ hy).1
  · rw [reset_origin_cols_z]
    exact (colMin_shift _ hz).1
  · intro r hr
    obtain ⟨a, ha, rfl⟩ := List.mem_map.mp hr
    refine ⟨?_, ?_, ?_⟩
    · have := colMin_le (List.mem_map.mpr ⟨a, ha, rfl⟩ :
        a.x_micrometer ∈ rows.map (fun s => s.x_micrometer))
      simpa using by linarith
    · have := colMin_le (List.mem_map.mpr ⟨a, ha, rfl⟩ :
        a.y_micrometer ∈ rows.map (fun s => s.y_micrometer))
      simpa using by linarith
    · have := colMin_le (List.mem_map.mpr ⟨a, ha, rfl⟩ :
        a.z_micrometer ∈ rows.map (fun s => s.z_micrometer))
      simpa using by linarith

/-- C3: after origin normalization of a non-empty table — `reset_origin`
itself, and as applied by `prepare_FOV_ROI_table` and
`prepare_well_ROI_table` — the minimum of the position values over all rows
is exactly zero on each of the X, Y and Z axes, and every row's position on
each axis is non-negative. -/
theorem reset_origin_spec (rows : List ROIRow) (df : List FOVRow)
    (hrows : rows ≠ []) (hdf : df ≠ []) :
    (colMin ((reset_origin rows).map (fun r => r.x_micrometer)) = 0 ∧
     colMin ((reset_origin rows).map (fun r => r.y_micrometer)) = 0 ∧
     colMin ((reset_origin rows).map (fun r => r.z_micrometer)) = 0) ∧
    (∀ r ∈ reset_origin rows,
      0 ≤ r.x_micrometer ∧ 0 ≤ r.y_micrometer ∧ 0 ≤ r.z_micrometer) ∧
    (colMin ((prepare_FOV_ROI_table df).map (fun r => r.x_micrometer)) = 0 ∧
     colMin ((prepare_FOV_ROI_table df).map (fun r => r.y_micrometer)) = 0 ∧
     colMin ((prepare_FOV_ROI_table df).map (fun r => r.z_micrometer)) = 0) ∧
    (∀ r ∈ prepare_FOV_ROI_table df,
      0 ≤ r.x_micrometer ∧ 0 ≤ r.y_micrometer ∧ 0 ≤ r.z_micrometer) ∧
    (colMin ((prepare_well_ROI_table df).map (fun r => r.x_micrometer)) = 0 ∧
     colMin ((prepare_well_ROI_table df).map (fun r => r.y_micrometer)) = 0 ∧
     colMin ((prepare_well_ROI_table df).map (fun r => r.z_micrometer)) = 0) ∧
    (∀ r ∈ prepare_well_ROI_table df,
      0 ≤ r.x_micrometer ∧ 0 ≤ r.y_micrometer ∧ 0 ≤ r.z_micrometer) := by
  obtain ⟨hmins, hnn⟩ := reset_origin_core rows hrows
  have hfov : df.map mkFOVROIRow ≠ [] :=
    fun hmap => hdf (List.map_eq_nil_iff.mp hmap)
  obtain ⟨hminsF, hnnF⟩ := reset_origin_core (df.map mkFOVROIRow) hfov
  obtain ⟨f, fs, rfl⟩ := List.exists_cons_of_ne_nil hdf
  obtain ⟨hminsW, hnnW⟩ := reset_origin_core
    [⟨"well_" ++ f.index,
      colMin ((f :: fs).map (fun g => g.x_micrometer)),
      colMin ((f :: fs).map (fun g => g.y_micrometer)),
      colMin ((f :: fs).map (fun g => g.z_micrometer)),
      colMax ((f :: fs).map
        (fun g => g.x_micrometer + (g.x_pixel : ℚ) * g.pixel_size_x)) -
        colMin ((f :: fs).map (fun g => g.x_micrometer)),
      colMax ((f :: fs).map
        (fun g => g.y_micrometer + (g.y_pixel : ℚ) * g.pixel_size_y)) -
        colMin ((f :: fs).map (fun g => g.y_micrometer)),
      colMax ((f :: fs).map
        (fun g => g.z_micrometer + (g.z_pixel : ℚ) * g.pixel_size_z)) -
        colMin ((f :: fs).map (fun g => g.z_micrometer))⟩]
    (List.cons_ne_nil _ _)
  exact ⟨hmins, hnn, hminsF, hnnF, hminsW, hnnW⟩

/-- Witness for C3 at a concrete two-row table and one-FOV dataframe. -/
theorem reset_origin_spec_witness :
    colMin ((reset_origin [⟨"a", 5, 3, 1, 0, 0, 0⟩, ⟨"b", 2, 7, 4, 0, 0, 0⟩]).map
      (fun r => r.x_micrometer)) = 0 ∧
    colMin ((prepare_well_ROI_table
      [⟨"F1", 10, 20, 30, 2, 2, 1, 1, 1, 1⟩]).map
      (fun r => r.z_micrometer)) = 0 := by
  have h := reset_origin_spec [⟨"a", 5, 3, 1, 0, 0, 0⟩, ⟨"b", 2, 7, 4, 0, 0, 0⟩]
    [⟨"F1", 10, 20, 30, 2, 2, 1, 1, 1, 1⟩]
    (List.cons_ne_nil _ _) (List.cons_ne_nil _ _)
  exact ⟨h.1.1, h.2.2.2.2.1.2.2⟩

theorem foldl_min_le_gen {α : Type} [LinearOrder α] (as : List α) (a : α) :
    ∀ b ∈ a :: as, as.foldl min a ≤ b := by
  induction as generalizing a with
  | nil =>
    intro b hb
    rcases List.mem_singleton.mp hb with rfl
    exact le_refl _
  | cons c cs ih =>
    intro b hb
    rw [List.foldl_cons]
    rcases List.mem_cons.mp hb with rfl | hb2
    · exact le_trans (ih (min b c) _ (List.mem_cons_self _ _)) (min_le_left _ _)
    · rcases List.mem_cons.mp hb2 with rfl | hb3
      · exact le_trans (ih (min a b) _ (List.mem_cons_self _ _))
          (min_le_right _ _)
      · exact ih (min a c) b (List.mem_cons_of_mem _ hb3)

theorem foldl_max_ge_gen {α : Type} [LinearOrder α] (as : List α) (a : α) :
    ∀ b ∈ a :: as, b ≤ as.foldl max a := by
  induction as generalizing a with
  | nil =>
    intro b hb
    rcases List.mem_singleton.mp hb with rfl
    exact le_refl _
  | cons c cs ih =>
    intro b hb
    rw [List.foldl_cons]
    rcases List.mem_cons.mp hb with rfl | hb2
    · exact le_trans (le_max_left _ _) (ih (max b c) _ (List.mem_cons_self _ _))
    · rcases List.mem_cons.mp hb2 with rfl | hb3
      · exact le_trans (le_max_right _ _)
          (ih (max a b) _ (List.mem_cons_self _ _))
      · exact ih (max a c) b (List.mem_cons_of_mem _ hb3)

/-- A 3D integer mask array: an explicit ZYX shape plus a valuation on
coordinates (values at out-of-bounds coordinates are never consulted). -/
structure MaskArray where
  shape_z : ℕ
  shape_y : ℕ
  shape_x : ℕ
  val : ℕ → ℕ → ℕ → ℤ

/-- All in-bounds ZYX coordinates of a mask array, in row-major order. -/
def allCoords (m : MaskArray) : List (ℕ × ℕ × ℕ) :=
  (List.range m.shape_z).flatMap (fun z =>
    (List.range m.shape_y).flatMap (fun y =>
      (List.range m.shape_x).map (fun x => (z, y, x))))

/-- `labels = np.unique(mask_array); labels = labels[labels > 0]`: the
distinct values greater than zero present in the array, in ascending
order. -/
def uniqueLabels (m : MaskArray) : List ℤ :=
  (((allCoords m).map (fun c => m.val c.1 c.2.1 c.2.2)).toFinset.filter
    (fun v => 0 < v)).sort (· ≤ ·)

/-- `np.where(mask_array == label)`: the in-bounds coordinates at which the
array holds `lbl`. -/
def matchCoords (m : MaskArray) (lbl : ℤ) : List (ℕ × ℕ × ℕ) :=
  (allCoords m).filter (fun c => decide (m.val c.1 c.2.1 c.2.2 = lbl))

/-- `np.min` over a non-empty coordinate list (never called on `[]` in
`array_to_bounding_box_table`: each label comes from the array). -/
def natMin : List ℕ → ℕ
  | [] => 0
  | a :: as => as.foldl min a

/-- `np.max` over a non-empty coordinate list. -/
def natMax : List ℕ → ℕ
  | [] => 0
  | a :: as => as.foldl max a

theorem natMin_le {l : List ℕ} {b : ℕ} (h : b ∈ l) : natMin l ≤ b := by
  cases l with
  | nil => cases h
  | cons a as => exact foldl_min_le_gen as a b h

theorem le_natMax {l : List ℕ} {b : ℕ} (h : b ∈ l) : b ≤ natMax l := by
  cases l with
  | nil => cases h
  | cons a as => exact foldl_max_ge_gen as a b h

theorem natMin_le_natMax {l : List ℕ} (h : l ≠ []) : natMin l ≤ natMax l := by
  obtain ⟨a, as, rfl⟩ := List.exists_cons_of_ne_nil h
  exact le_trans (natMin_le (List.mem_cons_self a as))
    (le_natMax (List.mem_cons_self a as))

/-- One row of the bounding-box table: the six ROI columns (see
`prepare_well_ROI_table`) plus the `label` column. -/
structure BBoxRow where
  x_micrometer : ℚ
  y_micrometer : ℚ
  z_micrometer : ℚ
  len_x_micrometer : ℚ
  len_y_micrometer : ℚ
  len_z_micrometer : ℚ
  label : ℤ
deriving DecidableEq

/-- The row `array_to_bounding_box_table` appends for one label value:
per axis, `min = np.min(coords) * pixel_size`,
`max = (np.max(coords) + 1) * pixel_size`, `length = max - min`, and then
the shift `min += origin * pixel_size` applied to the minimum only. -/
def bboxRowOf (m : MaskArray) (pz py px : ℚ) (oz oy ox : ℤ) (lbl : ℤ) :
    BBoxRow :=
  let coords := matchCoords m lbl
  let zmin : ℚ := (natMin (coords.map (fun c => c.1)) : ℚ) * pz
  let ymin : ℚ := (natMin (coords.map (fun c => c.2.1)) : ℚ) * py
  let xmin : ℚ := (natMin (coords.map (fun c => c.2.2)) : ℚ) * px
  let zmax : ℚ := ((natMax (coords.map (fun c => c.1)) : ℚ) + 1) * pz
  let ymax : ℚ := ((natMax (coords.map (fun c => c.2.1)) : ℚ) + 1) * py
  let xmax : ℚ := ((natMax (coords.map (fun c => c.2.2)) : ℚ) + 1) * px
  ⟨xmin + (ox : ℚ) * px, ymin + (oy : ℚ) * py, zmin + (oz : ℚ) * pz,
   xmax - xmin, ymax - ymin, zmax - zmin, lbl⟩

/-- `array_to_bounding_box_table`: one `BBoxRow` per distinct positive value
of the mask array, in ascending label order; an array with no positive
values gives the empty table (the dataframe with the schema and zero
rows). -/
def array_to_bounding_box_table (m : MaskArray) (pz py px : ℚ)
    (oz oy ox : ℤ) : List BBoxRow :=
  (uniqueLabels m).map (bboxRowOf m pz py px oz oy ox)

theorem mem_allCoords (m : MaskArray) (z y x : ℕ) :
    (z, y, x) ∈ allCoords m ↔
      z < m.shape_z ∧ y < m.shape_y ∧ x < m.shape_x := by
  simp only [allCoords, List.mem_flatMap, List.mem_map, List.mem_range]
  constructor
  · rintro ⟨z2, hz2, y2, hy2, x2, hx2, heq⟩
    obtain ⟨rfl, rfl, rfl⟩ := Prod.mk.injEq .. ▸ (by
      injection heq with h1 h2
      injection h2 with h3 h4
      exact ⟨h1, h3, h4⟩ : z2 = z ∧ y2 = y ∧ x2 = x)
    exact ⟨hz2, hy2, hx2⟩
  · rintro ⟨hz, hy, hx⟩
    exact ⟨z, hz, y, hy, x, hx, rfl⟩

theorem mem_uniqueLabels (m : MaskArray) (l : ℤ) :
    l ∈ uniqueLabels m ↔
      0 < l ∧ ∃ c ∈ allCoords m, m.val c.1 c.2.1 c.2.2 = l := by
  unfold uniqueLabels
  rw [Finset.mem_sort, Finset.mem_filter, List.mem_toFinset, List.mem_map]
  constructor
  · rintro ⟨⟨c, hc, rfl⟩, hpos⟩
    exact ⟨hpos, c, hc, rfl⟩
  · rintro ⟨hpos, c, hc, rfl⟩
    exact ⟨⟨c, hc, rfl⟩, hpos⟩

theorem mem_matchCoords (m : MaskArray) (lbl : ℤ) (c : ℕ × ℕ × ℕ) :
    c ∈ matchCoords m lbl ↔
      c ∈ allCoords m ∧ m.val c.1 c.2.1 c.2.2 = lbl := by
  simp [matchCoords, List.mem_filter]

theorem matchCoords_ne_nil (m : MaskArray) (lbl : ℤ)
    (h : lbl ∈ uniqueLabels m) : matchCoords m lbl ≠ [] := by
  obtain ⟨-, c, hc, hval⟩ := (mem_uniqueLabels m lbl).mp h
  intro hnil
  have : c ∈ matchCoords m lbl := (mem_matchCoords m lbl c).mpr ⟨hc, hval⟩
  rw [hnil] at this
  cases this

theorem bbox_labels_eq (m : MaskArray) (pz py px : ℚ) (oz oy ox : ℤ) :
    (array_to_bounding_box_table m pz py px oz oy ox).map
      (fun r => r.label) = uniqueLabels m := by
  unfold array_to_bounding_box_table
  rw [List.map_map]
  exact List.map_id _

/-- C4: the bounding-box table has one row per distinct positive value of the
mask array, in ascending label order; each row's physical bounds are the
per-axis minimum matching coordinate times the pixel size plus the origin
shift times the pixel size (shift applied to the minimum only), its extents
are `(max + 1 - min) * pixel_size` and are shift-invariant; and an array
with no positive values yields zero rows without error. -/
theorem array_to_bounding_box_table_spec
    (m : MaskArray) (pz py px : ℚ) (oz oy ox : ℤ)
    (hpz : 0 < pz) (hpy : 0 < py) (hpx : 0 < px) :
    ((array_to_bounding_box_table m pz py px oz oy ox).map
      (fun r => r.label) = uniqueLabels m) ∧
    List.Sorted (· < ·)
      ((array_to_bounding_box_table m pz py px oz oy ox).map
        (fun r => r.label)) ∧
    (∀ l : ℤ,
      l ∈ (array_to_bounding_box_table m pz py px oz oy ox).map
        (fun r => r.label) ↔
      0 < l ∧ ∃ z y x, z < m.shape_z ∧ y < m.shape_y ∧ x < m.shape_x ∧
        m.val z y x = l) ∧
    (∀ r ∈ array_to_bounding_box_table m pz py px oz oy ox,
      r.z_micrometer =
        (natMin ((matchCoords m r.label).map (fun c => c.1)) : ℚ) * pz +
          (oz : ℚ) * pz ∧
      r.y_micrometer =
        (natMin ((matchCoords m r.label).map (fun c => c.2.1)) : ℚ) * py +
          (oy : ℚ) * py ∧
      r.x_micrometer =
        (natMin ((matchCoords m r.label).map (fun c => c.2.2)) : ℚ) * px +
          (ox : ℚ) * px ∧
      r.len_z_micrometer =
        ((natMax ((matchCoords m r.label).map (fun c => c.1)) : ℚ) + 1 -
          (natMin ((matchCoords m r.label).map (fun c => c.1)) : ℚ)) * pz ∧
      r.len_y_micrometer =
        ((natMax ((matchCoords m r.label).map (fun c => c.2.1)) : ℚ) + 1 -
          (natMin ((matchCoords m r.label).map (fun c => c.2.1)) : ℚ)) * py ∧
      r.len_x_micrometer =
        ((natMax ((matchCoords m r.label).map (fun c => c.2.2)) : ℚ) + 1 -
          (natMin ((matchCoords m r.label).map (fun c => c.2.2)) : ℚ)) * px) ∧
    ((array_to_bounding_box_table m pz py px oz oy ox).map
        (fun r => (r.len_x_micrometer, r.len_y_micrometer,
          r.len_z_micrometer)) =
      (array_to_bounding_box_table m pz py px 0 0 0).map
        (fun r => (r.len_x_micrometer, r.len_y_micrometer,
          r.len_z_micrometer))) ∧
    ((∀ z y x, z < m.shape_z → y < m.shape_y → x < m.shape_x →
        m.val z y x ≤ 0) →
      array_to_bounding_box_table m pz py px oz oy ox = []) := by
  refine ⟨bbox_labels_eq m pz py px oz oy ox, ?_, ?_, ?_, ?_, ?_⟩
  · rw [bbox_labels_eq]
    exact Finset.sort_sorted_lt _
  · intro l
    rw [bbox_labels_eq, mem_uniqueLabels]
    constructor
    · rintro ⟨hpos, ⟨z, y, x⟩, hc, hval⟩
      obtain ⟨h1, h2, h3⟩ := (mem_allCoords m z y x).mp hc
      exact ⟨hpos, z, y, x, h1, h2, h3, hval⟩
    · rintro ⟨hpos, z, y, x, h1, h2, h3, hval⟩
      exact ⟨hpos, ⟨z, y, x⟩, (mem_allCoords m z y x).mpr ⟨h1, h2, h3⟩, hval⟩
  · intro r hr
    obtain ⟨lbl, hlbl, rfl⟩ :=
      List.mem_map.mp (hr : r ∈ (uniqueLabels m).map _)
    refine ⟨rfl, rfl, rfl, by unfold bboxRowOf; ring, by unfold bboxRowOf; ring,
      by unfold bboxRowOf; ring⟩
  · unfold array_to_bounding_box_table
    rw [List.map_map, List.map_map]
    rfl
  · intro h
    have hempty : uniqueLabels m = [] := by
      unfold uniqueLabels
      have hfe : (((allCoords m).map
          (fun c => m.val c.1 c.2.1 c.2.2)).toFinset.filter
            (fun v => 0 < v)) = ∅ := by
        apply Finset.filter_eq_empty_iff.mpr
        intro v hv
        rw [List.mem_toFinset] at hv
        obtain ⟨⟨z, y, x⟩, hc, rfl⟩ := List.mem_map.mp hv
        obtain ⟨h1, h2, h3⟩ := (mem_allCoords m z y x).mp hc
        exact not_lt.mpr (h z y x h1 h2 h3)
      rw [hfe]
      exact Finset.sort_empty _
    unfold array_to_bounding_box_table
    rw [hempty]
    rfl

/-- A mask array holding no positive value. -/
def zeroMask : MaskArray := ⟨1, 1, 2, fun _ _ _ => 0⟩

/-- Witness for C4: a concrete all-zero mask with unit pixel sizes yields the
empty bounding-box table. -/
theorem array_to_bounding_box_table_spec_witness :
    array_to_bounding_box_table zeroMask 1 1 1 0 0 0 = [] := by
  have h := array_to_bounding_box_table_spec zeroMask 1 1 1 0 0 0
    one_pos one_pos one_pos
  exact h.2.2.2.2.2 (fun z y x _ _ _ => le_refl 0)

/-- C10: every row of a bounding-box table has, per axis, an extent of at
least one pixel size, hence strictly positive: the box spans from the
minimum matching coordinate to the maximum matching coordinate plus one. -/
theorem bounding_box_positive_extents
    (m : MaskArray) (pz py px : ℚ) (oz oy ox : ℤ)
    (hpz : 0 < pz) (hpy : 0 < py) (hpx : 0 < px) :
    ∀ r ∈ array_to_bounding_box_table m pz py px oz oy ox,
      (pz ≤ r.len_z_micrometer ∧ py ≤ r.len_y_micrometer ∧
        px ≤ r.len_x_micrometer) ∧
      (0 < r.len_z_micrometer ∧ 0 < r.len_y_micrometer ∧
        0 < r.len_x_micrometer) := by
  intro r hr
  obtain ⟨lbl, hlbl, rfl⟩ :=
    List.mem_map.mp (hr : r ∈ (uniqueLabels m).map _)
  have hne := matchCoords_ne_nil m lbl hlbl
  have hgeq : ∀ f : ℕ × ℕ × ℕ → ℕ,
      (natMin ((matchCoords m lbl).map f) : ℚ) ≤
        (natMax ((matchCoords m lbl).map f) : ℚ) := by
    intro f
    have hmne : (matchCoords m lbl).map f ≠ [] :=
      fun hmap => hne (List.map_eq_nil_iff.mp hmap)
    exact_mod_cast natMin_le_natMax hmne
  have hz := hgeq (fun c => c.1)
  have hy := hgeq (fun c => c.2.1)
  have hx := hgeq (fun c => c.2.2)
  simp only [bboxRowOf]
  refine ⟨⟨by nlinarith, by nlinarith, by nlinarith⟩,
    ⟨by nlinarith, by nlinarith, by nlinarith⟩⟩

/-- A mask array holding the single label 3 at its unique voxel. -/
def threeMask : MaskArray := ⟨1, 1, 1, fun _ _ _ => 3⟩

/-- Witness for C10: the row that the single-voxel label-3 mask contributes
has strictly positive extents (its membership in the table follows from the
membership lemmas, not from evaluation). -/
theorem bounding_box_positive_extents_witness :
    0 < (bboxRowOf threeMask 1 1 1 0 0 0 3).len_z_micrometer ∧
    0 < (bboxRowOf threeMask 1 1 1 0 0 0 3).len_y_micrometer ∧
    0 < (bboxRowOf threeMask 1 1 1 0 0 0 3).len_x_micrometer := by
  have h := bounding_box_positive_extents threeMask 1 1 1 0 0 0
    one_pos one_pos one_pos
  have hlbl : (3 : ℤ) ∈ uniqueLabels threeMask := by
    rw [mem_uniqueLabels]
    refine ⟨by norm_num, ⟨0, 0, 0⟩, ?_, rfl⟩
    rw [mem_allCoords]
    exact ⟨one_pos, one_pos, one_pos⟩
  have hmem : bboxRowOf threeMask 1 1 1 0 0 0 3 ∈
      array_to_bounding_box_table threeMask 1 1 1 0 0 0 :=
    List.mem_map.mpr ⟨3, hlbl, rfl⟩
  exact (h _ hmem).2

/-- `math.ceil(shape / grid_size)`: the nominal cell pixel count per axis
(the float division in the source is exact for array-shape magnitudes). -/
def gridLen (shape g : ℕ) : ℕ := (shape + g - 1) / g

/-- `min(shape, start + len) - start`: the clipped cell length, an integer
that is negative when `start` exceeds `shape`. -/
def tmpLen (shape start len : ℕ) : ℤ := (min shape (start + len) : ℤ) - start

/-- The row `get_image_grid_ROIs` appends for grid cell `(ind_y, ind_x)`:
`start_axis = ind_axis * ceil(shape_axis / grid_size_axis)` clipped at the
array shape, converted to physical units; Z is not partitioned; the row name
is `ROI_<counter>` with the row-major counter starting at 1.  (The
`x/y_micrometer_original` columns, which duplicate the start values, are not
modelled; no claim concerns them.) -/
def gridRow (shape_z shape_y shape_x : ℕ) (pz py px : ℚ)
    (grid_size_y grid_size_x ind_y ind_x : ℕ) : ROIRow :=
  ⟨"ROI_" ++ toString (ind_y * grid_size_x + ind_x + 1),
   ((ind_x * gridLen shape_x grid_size_x : ℕ) : ℚ) * px,
   ((ind_y * gridLen shape_y grid_size_y : ℕ) : ℚ) * py,
   0 * pz,
   (tmpLen shape_x (ind_x * gridLen shape_x grid_size_x)
     (gridLen shape_x grid_size_x) : ℚ) * px,
   (tmpLen shape_y (ind_y * gridLen shape_y grid_size_y)
     (gridLen shape_y grid_size_y) : ℚ) * py,
   (shape_z : ℚ) * pz⟩

/-- `get_image_grid_ROIs`: the double loop over `ind_y` (outer) and `ind_x`
(inner), appending one row per grid cell. -/
def get_image_grid_ROIs (shape_z shape_y shape_x : ℕ) (pz py px : ℚ)
    (grid_size_y grid_size_x : ℕ) : List ROIRow :=
  (List.range grid_size_y).flatMap (fun ind_y =>
    (List.range grid_size_x).map (fun ind_x =>
      gridRow shape_z shape_y shape_x pz py px grid_size_y grid_size_x
        ind_y ind_x))

theorem grid_list_length {α : Type} (gy gx : ℕ) (f : ℕ → ℕ → α) :
    ((List.range gy).flatMap (fun iy => (List.range gx).map (f iy))).length =
      gy * gx := by
  induction gy with
  | zero => simp
  | succ n ih =>
    rw [List.range_succ, List.flatMap_append, List.length_append, ih]
    simp [Nat.succ_mul]

theorem getD_map_range {α : Type} (g : ℕ → α) (gx ix : ℕ) (d : α)
    (h : ix < gx) : ((List.range gx).map g).getD ix d = g ix := by
  rw [List.getD_eq_getElem?_getD, List.getElem?_map, List.getElem?_range h]
  rfl

theorem grid_list_getD {α : Type} (gy gx iy ix : ℕ) (f : ℕ → ℕ → α) (d : α)
    (hy : iy < gy) (hx : ix < gx) :
    ((List.range gy).flatMap (fun a => (List.range gx).map (f a))).getD
      (iy * gx + ix) d = f iy ix := by
  induction gy with
  | zero => cases hy
  | succ n ih =>
    rw [List.range_succ, List.flatMap_append]
    rcases Nat.lt_or_ge iy n with hlt | hge
    · rw [List.getD_append]
      · exact ih hlt
      · rw [grid_list_length]
        calc iy * gx + ix < iy * gx + gx := by omega
          _ ≤ n * gx := by
            have : iy + 1 ≤ n := hlt
            calc iy * gx + gx = (iy + 1) * gx := by ring
              _ ≤ n * gx := Nat.mul_le_mul_right gx this
    · have hiy : iy = n := by omega
      subst hiy
      rw [List.getD_append_right]
      · rw [grid_list_length]
        have : iy * gx + ix - iy * gx = ix := by omega
        rw [this]
        simp only [List.flatMap_cons, List.flatMap_nil, List.append_nil]
        exact getD_map_range _ _ _ _ hx
      · rw [grid_list_length]
        omega

/-- Cell `i` of the one-dimensional ceiling-division grid covers pixel
`p`. -/
def gridCellContains (shape g i p : ℕ) : Prop :=
  i * gridLen shape g ≤ p ∧
    p < min shape (i * gridLen shape g + gridLen shape g)

theorem shape_le_mul_gridLen (shape g : ℕ) (hg : 0 < g) :
    shape ≤ g * gridLen shape g := by
  rcases Nat.eq_zero_or_pos shape with rfl | hs
  · exact Nat.zero_le _
  · have h2 : shape + g - 1 < g * (gridLen shape g + 1) :=
      Nat.lt_mul_div_succ _ hg
    have h3 : g * (gridLen shape g + 1) = g * gridLen shape g + g := by ring
    omega

theorem gridLen_pos (shape g : ℕ) (hs : 0 < shape) (hg : 0 < g) :
    0 < gridLen shape g := by
  have h1 : 1 * g ≤ shape + g - 1 := by omega
  have h2 := (Nat.le_div_iff_mul_le hg).mpr h1
  exact h2

/-- C5 tiling core: for `0 < g` each pixel `p < shape` lies in exactly one
cell of the ceiling-division grid. -/
theorem grid_cover_unique (shape g p : ℕ) (hg : 0 < g) (hp : p < shape) :
    ∃! i, i < g ∧ gridCellContains shape g i p := by
  have hL : 0 < gridLen shape g := gridLen_pos shape g (by omega) hg
  refine ⟨p / gridLen shape g, ⟨?_, ?_, ?_⟩, ?_⟩
  · rw [Nat.div_lt_iff_lt_mul hL]
    calc p < shape := hp
      _ ≤ g * gridLen shape g := shape_le_mul_gridLen shape g hg
  · exact Nat.div_mul_le_self p _
  · have h1 : p < gridLen shape g * (p / gridLen shape g + 1) :=
      Nat.lt_mul_div_succ _ hL
    have h2 : gridLen shape g * (p / gridLen shape g + 1) =
        p / gridLen shape g * gridLen shape g + gridLen shape g := by ring
    omega
  · rintro j ⟨hj, hjle, hjlt⟩
    have hjlt2 : p < j * gridLen shape g + gridLen shape g := by omega
    have heq : p / gridLen shape g = j :=
      Nat.div_eq_of_lt_le hjle (by
        calc p < j * gridLen shape g + gridLen shape g := hjlt2
          _ = (j + 1) * gridLen shape g := by ring)
    exact heq.symm

theorem tmpLen_pos_of_cond (shape g : ℕ) (hg : 0 < g)
    (hcond : (g - 1) * gridLen shape g < shape) :
    ∀ i < g, 0 < tmpLen shape (i * gridLen shape g) (gridLen shape g) := by
  intro i hi
  have hs : 0 < shape := by omega
  have hL : 0 < gridLen shape g := gridLen_pos shape g hs hg
  have hstart : i * gridLen shape g ≤ (g - 1) * gridLen shape g :=
    Nat.mul_le_mul_right _ (by omega)
  have h1 : i * gridLen shape g < shape := lt_of_le_of_lt hstart hcond
  have h2 : i * gridLen shape g <
      min shape (i * gridLen shape g + gridLen shape g) := by omega
  unfold tmpLen
  omega

/-- C5 (amended): `get_image_grid_ROIs` produces `grid_y * grid_x` rows in
row-major order (Y outer, X inner) with sequential `ROI_<k>` identifiers,
each cell's nominal pixel count fixed by ceiling division and clipped at the
array shape; the cells cover every pixel of the Y and X extents exactly once
and Z is not partitioned; cells are guaranteed non-empty only when
`(grid - 1) * ceil(shape / grid) < shape` holds on the axis (trailing cells
are empty otherwise). -/
theorem get_image_grid_ROIs_spec
    (shape_z shape_y shape_x : ℕ) (pz py px : ℚ) (gy gx : ℕ)
    (hgy : 0 < gy) (hgx : 0 < gx)
    (hpz : 0 < pz) (hpy : 0 < py) (hpx : 0 < px) :
    (get_image_grid_ROIs shape_z shape_y shape_x pz py px gy gx).length =
      gy * gx ∧
    (∀ iy ix, iy < gy → ix < gx →
      (get_image_grid_ROIs shape_z shape_y shape_x pz py px gy gx).getD
        (iy * gx + ix) default =
        gridRow shape_z shape_y shape_x pz py px gy gx iy ix) ∧
    (∀ iy ix, (gridRow shape_z shape_y shape_x pz py px gy gx iy ix).name =
      "ROI_" ++ toString (iy * gx + ix + 1)) ∧
    (∀ r ∈ get_image_grid_ROIs shape_z shape_y shape_x pz py px gy gx,
      r.z_micrometer = 0 * pz ∧ r.len_z_micrometer = (shape_z : ℚ) * pz) ∧
    (∀ p, p < shape_y → ∃! iy, iy < gy ∧ gridCellContains shape_y gy iy p) ∧
    (∀ p, p < shape_x → ∃! ix, ix < gx ∧ gridCellContains shape_x gx ix p) ∧
    ((gy - 1) * gridLen shape_y gy < shape_y →
      ∀ iy < gy, 0 < tmpLen shape_y (iy * gridLen shape_y gy)
        (gridLen shape_y gy)) ∧
    ((gx - 1) * gridLen shape_x gx < shape_x →
      ∀ ix < gx, 0 < tmpLen shape_x (ix * gridLen shape_x gx)
        (gridLen shape_x gx)) := by
  refine ⟨grid_list_length gy gx _, ?_, ?_, ?_, ?_, ?_,
    tmpLen_pos_of_cond shape_y gy hgy, tmpLen_pos_of_cond shape_x gx hgx⟩
  · intro iy ix hy hx
    exact grid_list_getD gy gx iy ix _ default hy hx
  · intro iy ix
    rfl
  · intro r hr
    unfold get_image_grid_ROIs at hr
    obtain ⟨iy, hiy, hr2⟩ := List.mem_flatMap.mp hr
    obtain ⟨ix, hix, rfl⟩ := List.mem_map.mp hr2
    exact ⟨rfl, rfl⟩
  · intro p hp
    exact grid_cover_unique shape_y gy p hgy hp
  · intro p hp
    exact grid_cover_unique shape_x gx p hgx hp

/-- C5 counterexample: on a `(1, 1, 1)` image with grid `(2, 2)` — four cells
over a single pixel — the fourth row is an empty cell (zero Y extent), so
the claim that no cell is ever empty fails. -/
theorem get_image_grid_ROIs_empty_cell :
    ((get_image_grid_ROIs 1 1 1 1 1 1 2 2).getD 3 default).len_y_micrometer
      = 0 ∧
    (get_image_grid_ROIs 1 1 1 1 1 1 2 2).length = 4 := by
  have h3 : (get_image_grid_ROIs 1 1 1 1 1 1 2 2).getD 3 default =
      gridRow 1 1 1 1 1 1 2 2 1 1 :=
    grid_list_getD 2 2 1 1 (fun iy ix => gridRow 1 1 1 1 1 1 2 2 iy ix)
      default (by norm_num) (by norm_num)
  constructor
  · rw [h3]
    show (tmpLen 1 (1 * gridLen 1 2) (gridLen 1 2) : ℚ) * 1 = 0
    norm_num [tmpLen, gridLen]
  · exact grid_list_length 2 2 _

/-- Witness for C5 on the claim's own example: the `(1, 100, 100)` image
with grid `(2, 2)` has `2 * 2` rows, its second Y cell is non-empty, and the
four cell areas sum to `10000` square micrometers. -/
theorem get_image_grid_ROIs_spec_witness :
    (get_image_grid_ROIs 1 100 100 1 1 1 2 2).length = 2 * 2 ∧
    0 < tmpLen 100 (1 * gridLen 100 2) (gridLen 100 2) ∧
    ((get_image_grid_ROIs 1 100 100 1 1 1 2 2).map
      (fun r => r.len_y_micrometer * r.len_x_micrometer)).sum = 10000 := by
  have h := get_image_grid_ROIs_spec 1 100 100 1 1 1 2 2 (by norm_num)
    (by norm_num) one_pos one_pos one_pos
  refine ⟨h.1, ?_, ?_⟩
  · exact h.2.2.2.2.2.2.1 (by norm_num [gridLen]) 1 (by norm_num)
  · norm_num [get_image_grid_ROIs, gridRow, gridLen, tmpLen, List.range_succ]

/-- A numpy integer array: shape (one entry per dimension) plus a valuation
on coordinate lists; out-of-bounds or wrong-arity coordinates are never
consulted. -/
structure NDArray where
  shape : List ℕ
  val : List ℕ → ℤ

/-- A numpy boolean array. -/
structure BoolND where
  shape : List ℕ
  val : List ℕ → Bool

/-- All in-bounds coordinates of a shape, in row-major order. -/
def coordsOf : List ℕ → List (List ℕ)
  | [] => [[]]
  | n :: rest =>
    (List.range n).flatMap (fun i => (coordsOf rest).map (fun c => i :: c))

/-- `background_3D = primary_label_array != label_value`. -/
def backgroundOf (primary : NDArray) (label_value : ℤ) : BoolND :=
  ⟨primary.shape, fun c => decide (primary.val c ≠ label_value)⟩

/-- `image_array[background_4D] = 0` with
`background_4D = np.expand_dims(background_3D, axis=0)`: the
background-zeroed image, the mask broadcast over the leading (singleton)
channel axis.  Only reached when the boolean index's shape equals
`image_array.shape` exactly. -/
def maskImage (image : NDArray) (bg : List ℕ → Bool) : NDArray :=
  ⟨image.shape, fun c =>
    match c with
    | [] => image.val []
    | c0 :: rest => if bg rest then 0 else image.val (c0 :: rest)⟩

/-- The failures of `preprocess_cellpose_input`: the four-dimensionality
check, the ZYX shape-mismatch check, the bare `raise ValueError` when no
voxel of the primary array holds the ROI's label, and numpy's `IndexError`
for a boolean index whose shape does not match the indexed array — raised
by `image_array[background_4D] = 0` whenever the leading channel dimension
is not 1, since numpy boolean-mask indexing of an equal-rank array requires
exactly matching shapes (no broadcasting). -/
inductive PreprocessError where
  | notFourDim (imageShape : List ℕ)
  | shapeMismatch (imageShape primaryShape : List ℕ)
  | missingLabel
  | booleanIndexMismatch (imageShape maskShape : List ℕ)
deriving DecidableEq

/-- `preprocess_cellpose_input`.  The embedding passes the already-loaded
`primary`/`current` label sub-arrays (the source loads them from the zarr
store at `region`) and the already-extracted `label_value`
(`int(ROI_table_obs.label[index_ROI])`); the source's `None`-argument and
`label`-column checks concern only that plumbing and are subsumed by the
types here.  The result's last component is the content of the caller's
`image_array` after the call: the masking assignment mutates it in place,
and the returned image is that same mutated array. -/
def preprocess_cellpose_input (image_array : NDArray) (use_masks : Bool)
    (primary_label_array current_label_array : NDArray) (label_value : ℤ) :
    Except PreprocessError
      (NDArray × Option BoolND × Option NDArray × NDArray) :=
  if image_array.shape.length ≠ 4 then
    .error (.notFourDim image_array.shape)
  else if use_masks then
    if primary_label_array.shape ≠ image_array.shape.tail then
      .error (.shapeMismatch image_array.shape primary_label_array.shape)
    else if ¬ (coordsOf primary_label_array.shape).any
        (fun c => decide (primary_label_array.val c = label_value)) then
      .error .missingLabel
    else if image_array.shape ≠ 1 :: primary_label_array.shape then
      .error (.booleanIndexMismatch image_array.shape
        (1 :: primary_label_array.shape))
    else
      .ok (maskImage image_array (backgroundOf primary_label_array
            label_value).val,
          some (backgroundOf primary_label_array label_value),
          some current_label_array,
          maskImage image_array (backgroundOf primary_label_array
            label_value).val)
  else
    .ok (image_array, none, none, image_array)

/-- Payload of the `ValueError` of `postprocess_cellpose_output`: the data
its message interpolates. -/
structure PostShapeError where
  use_masks : Bool
  oldShape : List ℕ
  newShape : List ℕ
  bgShape : List ℕ
deriving DecidableEq

/-- `postprocess_cellpose_output`.  The result components are: the returned
array, the content of the caller's `new_label_array` after the call, the
content of `old_label_array` after the call, and the content of
`background_3D` after the call.  The restoring assignment
`new_label_array[background_3D] = old_label_array[background_3D]` mutates
`new_label_array` in place and the function returns that same array; the
other two arguments are only read. -/
def postprocess_cellpose_output (use_masks : Bool)
    (new_label_array old_label_array : NDArray) (background_3D : BoolND) :
    Except PostShapeError (NDArray × NDArray × NDArray × BoolND) :=
  if use_masks then
    if new_label_array.shape.length = 3 ∧
        old_label_array.shape.length = 3 ∧
        old_label_array.shape = new_label_array.shape ∧
        background_3D.shape = new_label_array.shape then
      .ok (⟨new_label_array.shape, fun c =>
            if background_3D.val c then old_label_array.val c
            else new_label_array.val c⟩,
          ⟨new_label_array.shape, fun c =>
            if background_3D.val c then old_label_array.val c
            else new_label_array.val c⟩,
          old_label_array, background_3D)
    else
      .error ⟨use_masks, old_label_array.shape, new_label_array.shape,
        background_3D.shape⟩
  else
    .ok (new_label_array, new_label_array, old_label_array, background_3D)

/-- C6: with masking enabled and same-shape 3D arrays, post-segmentation
succeeds and returns an array equal to the prior array at every voxel where
the background mask is true and to the freshly segmented array where it is
false; with an all-true mask it returns the prior array exactly, regardless
of the freshly segmented content; with masking disabled both the pre- and
post-segmentation phases are identities on their arrays. -/
theorem postprocess_cellpose_output_spec
    (newA oldA : NDArray) (bg : BoolND)
    (h3 : newA.shape.length = 3) (hold : oldA.shape = newA.shape)
    (hbg : bg.shape = newA.shape) :
    (∃ out, postprocess_cellpose_output true newA oldA bg =
        .ok (out, out, oldA, bg) ∧
      out.shape = newA.shape ∧
      (∀ c, bg.val c = true → out.val c = oldA.val c) ∧
      (∀ c, bg.val c = false → out.val c = newA.val c) ∧
      ((∀ c, bg.val c = true) → out = oldA)) ∧
    (postprocess_cellpose_output false newA oldA bg =
      .ok (newA, newA, oldA, bg)) ∧
    (∀ (img primary current : NDArray) (lv : ℤ), img.shape.length = 4 →
      preprocess_cellpose_input img false primary current lv =
        .ok (img, none, none, img)) := by
  have hcond : newA.shape.length = 3 ∧ oldA.shape.length = 3 ∧
      oldA.shape = newA.shape ∧ bg.shape = newA.shape :=
    ⟨h3, by rw [hold]; exact h3, hold, hbg⟩
  refine ⟨⟨⟨newA.shape, fun c =>
      if bg.val c then oldA.val c else newA.val c⟩, ?_, rfl, ?_, ?_, ?_⟩,
    ?_, ?_⟩
  · unfold postprocess_cellpose_output
    rw [if_pos rfl, if_pos hcond]
  · intro c hc
    simp only [hc, if_pos]
  · intro c hc
    simp only [hc, Bool.false_eq_true, if_neg, not_false_eq_true]
  · intro hall
    cases oldA with
    | mk os ov =>
      simp only at hold
      subst hold
      congr 1
      funext c
      simp only [hall c, if_pos]
  · unfold postprocess_cellpose_output
    rw [if_neg (by simp)]
  · intro img primary current lv h4
    unfold preprocess_cellpose_input
    rw [if_neg (not_not_intro h4), if_neg (by simp)]

/-- A freshly segmented 2×2×2 array holding 1 everywhere. -/
def exNew : NDArray := ⟨[2, 2, 2], fun _ => 1⟩

/-- A prior 2×2×2 output array holding 2 everywhere. -/
def exOld : NDArray := ⟨[2, 2, 2], fun _ => 2⟩

/-- An all-true 2×2×2 background mask. -/
def exBgTrue : BoolND := ⟨[2, 2, 2], fun _ => true⟩

/-- Witness for C6: with a 2×2×2 all-true background mask the
post-segmentation output is exactly the prior array. -/
theorem postprocess_cellpose_output_spec_witness :
    postprocess_cellpose_output true exNew exOld exBgTrue =
      .ok (exOld, exOld, exOld, exBgTrue) := by
  have h := postprocess_cellpose_output_spec exNew exOld exBgTrue rfl rfl rfl
  obtain ⟨out, hok, hshape, ht, hf, hall⟩ := h.1
  have hout : out = exOld := hall (fun c => rfl)
  rw [hout] at hok
  exact hok

/-- A dual-channel 4D intensity array (shape `(2, 1, 1, 1)`). -/
def dualChannelImage : NDArray := ⟨[2, 1, 1, 1], fun _ => 5⟩

/-- A 1×1×1 primary label array holding label 7 everywhere. -/
def exPrimary7 : NDArray := ⟨[1, 1, 1], fun _ => 7⟩

/-- A 1×1×1 prior output label array. -/
def exCurrent : NDArray := ⟨[1, 1, 1], fun _ => 0⟩

/-- C7 counterexample: a 4-dimensional two-channel intensity array whose ZYX
shape matches the primary label array, with the ROI's label present, still
fails — the boolean masking assignment raises because the expanded mask has
shape `(1, 1, 1, 1)` while the image has shape `(2, 1, 1, 1)` — so the
claim that the call succeeds whenever the three stated conditions hold is
false. -/
theorem preprocess_cellpose_input_dual_channel_fails :
    dualChannelImage.shape.length = 4 ∧
    exPrimary7.shape = dualChannelImage.shape.tail ∧
    (coordsOf exPrimary7.shape).any
      (fun c => decide (exPrimary7.val c = 7)) = true ∧
    preprocess_cellpose_input dualChannelImage true exPrimary7 exCurrent 7 =
      .error (.booleanIndexMismatch [2, 1, 1, 1] [1, 1, 1, 1]) := by
  exact ⟨rfl, rfl, rfl, rfl⟩

/-- C7 (amended): with masking enabled, `preprocess_cellpose_input` fails on
a non-4D intensity array; then on a primary/intensity ZYX shape mismatch —
both shape checks preceding the masking computation; then, shapes agreeing,
on the absence of the ROI's label from the primary array; when all three
conditions hold it succeeds exactly when the leading channel dimension is 1
(the expanded boolean mask must match the image shape), returning the
background-zeroed intensity array, the background mask and the prior content
of the output label sub-array. -/
theorem preprocess_cellpose_input_spec
    (image primary current : NDArray) (lv : ℤ)
    (h4 : image.shape.length = 4) (hsh : primary.shape = image.shape.tail)
    (hml : (coordsOf primary.shape).any
      (fun c => decide (primary.val c = lv)) = true) :
    (image.shape = 1 :: primary.shape →
      preprocess_cellpose_input image true primary current lv =
        .ok (maskImage image (backgroundOf primary lv).val,
          some (backgroundOf primary lv), some current,
          maskImage image (backgroundOf primary lv).val) ∧
      (∀ c0 rest,
        (maskImage image (backgroundOf primary lv).val).val (c0 :: rest) =
          if primary.val rest ≠ lv then 0 else image.val (c0 :: rest)) ∧
      (∀ c, (backgroundOf primary lv).val c =
        decide (primary.val c ≠ lv))) ∧
    (image.shape ≠ 1 :: primary.shape →
      preprocess_cellpose_input image true primary current lv =
        .error (.booleanIndexMismatch image.shape
          (1 :: primary.shape))) ∧
    (∀ (img2 prim2 cur2 : NDArray) (lv2 : ℤ), img2.shape.length ≠ 4 →
      preprocess_cellpose_input img2 true prim2 cur2 lv2 =
        .error (.notFourDim img2.shape)) ∧
    (∀ (img2 prim2 cur2 : NDArray) (lv2 : ℤ), img2.shape.length = 4 →
      prim2.shape ≠ img2.shape.tail →
      preprocess_cellpose_input img2 true prim2 cur2 lv2 =
        .error (.shapeMismatch img2.shape prim2.shape)) ∧
    (∀ (img2 prim2 cur2 : NDArray) (lv2 : ℤ), img2.shape.length = 4 →
      prim2.shape = img2.shape.tail →
      ¬ (coordsOf prim2.shape).any
        (fun c => decide (prim2.val c = lv2)) = true →
      preprocess_cellpose_input img2 true prim2 cur2 lv2 =
        .error .missingLabel) := by
  refine ⟨?_, ?_, ?_, ?_, ?_⟩
  · intro hchan
    refine ⟨?_, ?_, fun c => rfl⟩
    · unfold preprocess_cellpose_input
      rw [if_neg (not_not_intro h4), if_pos rfl,
        if_neg (not_not_intro hsh), if_neg (not_not_intro hml),
        if_neg (not_not_intro hchan)]
    · intro c0 rest
      simp [maskImage, backgroundOf]
  · intro hchan
    unfold preprocess_cellpose_input
    rw [if_neg (not_not_intro h4), if_pos rfl,
      if_neg (not_not_intro hsh), if_neg (not_not_intro hml),
      if_pos hchan]
  · intro img2 prim2 cur2 lv2 h4n
    unfold preprocess_cellpose_input
    rw [if_pos h4n]
  · intro img2 prim2 cur2 lv2 h4e hshn
    unfold preprocess_cellpose_input
    rw [if_neg (not_not_intro h4e), if_pos rfl, if_pos hshn]
  · intro img2 prim2 cur2 lv2 h4e hshe hmln
    unfold preprocess_cellpose_input
    rw [if_neg (not_not_intro h4e), if_pos rfl,
      if_neg (not_not_intro hshe), if_pos hmln]

/-- A single-channel 4D intensity array (shape `(1, 1, 1, 1)`). -/
def singleChannelImage : NDArray := ⟨[1, 1, 1, 1], fun _ => 5⟩

/-- Witness for C7: the single-channel variant of the same input
succeeds. -/
theorem preprocess_cellpose_input_spec_witness :
    ∃ t, preprocess_cellpose_input singleChannelImage true exPrimary7
      exCurrent 7 = .ok t := by
  have h := preprocess_cellpose_input_spec singleChannelImage exPrimary7
    exCurrent 7 rfl rfl rfl
  exact ⟨_, (h.1 rfl).1⟩

/-- A 1×1×1 freshly segmented array holding 1. -/
def mutNew : NDArray := ⟨[1, 1, 1], fun _ => 1⟩

/-- A 1×1×1 prior output array holding 2. -/
def mutOld : NDArray := ⟨[1, 1, 1], fun _ => 2⟩

/-- A 1×1×1 all-true background mask. -/
def mutBg : BoolND := ⟨[1, 1, 1], fun _ => true⟩

/-- C9 counterexample: after the masking post-segmentation call the caller's
freshly segmented array holds the prior array's value 2 at the origin
instead of its own original value 1 — `new_label_array[background_3D] =
old_label_array[background_3D]` mutates the argument in place — so the
engine is not pure with respect to its array arguments. -/
theorem postprocess_mutates_new_label_array :
    (postprocess_cellpose_output true mutNew mutOld mutBg).toOption.map
      (fun t => t.2.1.val [0, 0, 0]) = some 2 ∧
    mutNew.val [0, 0, 0] = 1 := by
  exact ⟨rfl, rfl⟩

/-- C9 (amended): the table and index operations are pure, but the two
cellpose phases mutate their principal array argument in place: on success
the returned array is exactly the argument's post-call content (an alias,
background voxels overwritten), while the prior label array and the
background mask arguments are left unchanged. -/
theorem cellpose_masking_state_spec
    (use_masks : Bool) (newA oldA : NDArray) (bg : BoolND)
    (image primary current : NDArray) (lv : ℤ) :
    (∀ t, postprocess_cellpose_output use_masks newA oldA bg = .ok t →
      t.2.1 = t.1 ∧ t.2.2.1 = oldA ∧ t.2.2.2 = bg) ∧
    (∀ t, preprocess_cellpose_input image use_masks primary current lv =
      .ok t → t.2.2.2 = t.1) ∧
    (∀ t bgnd,
      preprocess_cellpose_input image true primary current lv = .ok t →
      t.2.1 = some bgnd →
      ∀ c0 rest, bgnd.val rest = true → t.2.2.2.val (c0 :: rest) = 0) := by
  refine ⟨?_, ?_, ?_⟩
  · intro t h
    unfold postprocess_cellpose_output at h
    split_ifs at h <;>
      first
        | exact Except.noConfusion h
        | (cases h; exact ⟨rfl, rfl, rfl⟩)
  · intro t h
    unfold preprocess_cellpose_input at h
    split_ifs at h <;>
      first
        | exact Except.noConfusion h
        | (cases h; rfl)
  · intro t bgnd h hbg
    unfold preprocess_cellpose_input at h
    split_ifs at h <;>
      first
        | exact Except.noConfusion h
        | (cases h; exact Option.noConfusion hbg)
        | (cases h
           simp only [Option.some.injEq] at hbg
           subst hbg
           intro c0 rest hrest
           show (if (backgroundOf primary lv).val rest then (0 : ℤ)
             else image.val (c0 :: rest)) = 0
           rw [if_pos hrest])

end FractalROI
